import Mathlib

/-!
Verification of the `stasm` stack-machine (source: `src/src/lib.rs`).

The machine executes a small bytecode instruction set against an operand
stack of 64-bit floating-point values, a byte-addressable linear memory,
and a table of functions.

Embedding choices, each justified against the source:

* An `f64` value is represented by its 64-bit pattern, a `Nat` (intended
  `< 2^64`).  Memory traffic (`to_le_bytes` / `from_le_bytes`) is exact on
  bit patterns, so `load`/`store` are modelled concretely.  The arithmetic
  operations `+`, `*` on `f64` and the `as usize` cast are kept abstract in
  a structure `F64Model`; theorems about stack discipline, control flow and
  memory quantify over every instantiation, hence in particular over the
  IEEE-754 one.
* A Rust `panic!` (a failed `unwrap`, an out-of-bounds slice or `Vec`/
  `HashMap` index) aborts the whole execution; it is modelled by `none`.
* The per-instruction `println!` trace writes no machine state and is
  dropped.
* Recursion through `CallFunc` can be unbounded in the source (a function
  may call itself), so `execute` takes a fuel parameter that strictly
  decreases at every step; `none` is also returned on fuel exhaustion.
-/

namespace Stasm

/-- A 64-bit floating-point value, represented by its IEEE-754 bit
pattern (a `Nat`, intended `< 2^64`). -/
abbrev Val := Nat

/-- One byte of linear memory (a `Nat`, intended `< 256`). -/
abbrev Byte := Nat

/-- The abstracted `f64` value semantics: IEEE-754 addition and
multiplication on bit patterns, and the saturating `as usize` cast used
for addresses.  Claims that do not depend on numeric results are proved
for every instantiation. -/
structure F64Model where
  add : Val → Val → Val
  mul : Val → Val → Val
  toUsize : Val → Nat

/-- `enum Instruction` from the source. -/
inductive Instruction where
  | Const : Val → Instruction
  | Mul : Instruction
  | Add : Instruction
  | Load : Instruction
  | Store : Instruction
  | LocalGet : Nat → Instruction
  | LocalSet : Nat → Instruction
  | CallFunc : Nat → Instruction
deriving DecidableEq

/-- `struct Function { nparams, returns, code }` from the source. -/
structure Function where
  nparams : Nat
  returns : Bool
  code : List Instruction
deriving DecidableEq

/-- `struct Machine { stack, memory, functions }` from the source.  The
top of the operand stack (the end of the Rust `Vec`) is the head of the
`stack` list. -/
structure Machine where
  stack : List Val
  memory : List Byte
  functions : List Function
deriving DecidableEq

/-- `Machine::new`: empty stack, `mem_size` zero bytes, the given table. -/
def Machine.new (functions : List Function) (memSize : Nat) : Machine :=
  ⟨[], List.replicate memSize 0, functions⟩

/-- `f64::to_le_bytes` on a bit pattern: the eight base-256 digits of the
pattern, least significant first. -/
def toLeBytes (v : Val) : List Byte :=
  [v % 256, v / 256 % 256, v / 65536 % 256, v / 16777216 % 256,
   v / 4294967296 % 256, v / 1099511627776 % 256,
   v / 281474976710656 % 256, v / 72057594037927936 % 256]

/-- `f64::from_le_bytes` on a byte list: reassemble the bit pattern,
least significant byte first. -/
def fromLeBytes (bs : List Byte) : Val :=
  bs.foldr (fun b acc => b + 256 * acc) 0

/-- `Machine::load`: read the 8 bytes `memory[addr..addr+8]` and
reinterpret them little-endian.  The slice index panics when
`addr + 8 > memory.len()`. -/
def Machine.load (m : Machine) (addr : Nat) : Option Val :=
  if addr + 8 ≤ m.memory.length then
    some (fromLeBytes ((m.memory.drop addr).take 8))
  else
    none

/-- `Machine::store`: overwrite `memory[addr..addr+8]` with the value's
little-endian bytes.  The slice index panics when
`addr + 8 > memory.len()`. -/
def Machine.store (m : Machine) (addr : Nat) (v : Val) : Option Machine :=
  if addr + 8 ≤ m.memory.length then
    some { m with
            memory := m.memory.take addr ++ toLeBytes v ++ m.memory.drop (addr + 8) }
  else
    none

/-- `Machine::push`. -/
def Machine.push (m : Machine) (item : Val) : Machine :=
  { m with stack := item :: m.stack }

/-- `Machine::pop`: returns `None` and leaves the machine unchanged when
the stack is empty. -/
def Machine.pop (m : Machine) : Option Val × Machine :=
  match m.stack with
  | [] => (none, m)
  | v :: rest => (some v, { m with stack := rest })

/-- `n` successive `self.pop().unwrap()` calls, as performed by the
`CallFunc` arm: the result list is in pop order (head = old top of
stack); `none` models the panic on underflow. -/
def Machine.popN (m : Machine) : Nat → Option (List Val × Machine)
  | 0 => some ([], m)
  | n + 1 =>
    match m.pop with
    | (some v, m1) =>
      match m1.popN n with
      | some (vs, m2) => some (v :: vs, m2)
      | none => none
    | (none, _) => none

/-- The local scope of one activation.  `Machine::call` builds a
`HashMap` binding index `k` to `args[k]` for every `k < args.len()`; that
map is exactly the association `k ↦ args.get? k`, so it is represented by
the argument list itself, looked up with `List.get?`. -/
abbrev Locals := List Val

/-- `Machine::execute`.  `fuel` strictly decreases at every recursive
call, so the definition is structural and kernel-reducible; `none` is
a panic or fuel exhaustion.

Two points of faithfulness to the source:

* In the `CallFunc` arm the source computes
  `(0..func.nparams).map(|_| self.pop().unwrap()).rev().collect()`.
  The `map` is lazy and its closure ignores the index, so reversing the
  index iterator changes neither the order in which the pops run nor the
  order in which `collect` stores their results: the collected argument
  vector is in pop order (old top of stack first).  `popN` reproduces
  exactly that.
* The source's `CallFunc` arm invokes `Machine::call`; its body is
  inlined here so that the recursion is structural in `fuel`.
  `Machine.call` below packages the same steps and
  `execute_callFunc_via_call` proves the two agree.

The `LocalGet` arm with no active scope prints `"No locals supplied"`
and falls through; the `LocalSet` arm is commented out in the source and
does nothing. -/
def Machine.execute (M : F64Model) :
    Nat → Machine → List Instruction → Option Locals → Option Machine
  | _, m, [], _ => some m
  | 0, _, _ :: _, _ => none
  | fuel + 1, m, ins :: rest, locals =>
    match ins with
    | Instruction.Const item =>
      Machine.execute M fuel (m.push item) rest locals
    | Instruction.Add =>
      match m.pop with
      | (some right, m1) =>
        match m1.pop with
        | (some left, m2) =>
          Machine.execute M fuel (m2.push (M.add left right)) rest locals
        | (none, _) => none
      | (none, _) => none
    | Instruction.Mul =>
      match m.pop with
      | (some right, m1) =>
        match m1.pop with
        | (some left, m2) =>
          Machine.execute M fuel (m2.push (M.mul left right)) rest locals
        | (none, _) => none
      | (none, _) => none
    | Instruction.Load =>
      match m.pop with
      | (some addr, m1) =>
        match m1.load (M.toUsize addr) with
        | some v => Machine.execute M fuel (m1.push v) rest locals
        | none => none
      | (none, _) => none
    | Instruction.Store =>
      match m.pop with
      | (some v, m1) =>
        match m1.pop with
        | (some addr, m2) =>
          match m2.store (M.toUsize addr) v with
          | some m3 => Machine.execute M fuel m3 rest locals
          | none => none
        | (none, _) => none
      | (none, _) => none
    | Instruction.LocalGet index =>
      match locals with
      | some l =>
        match l.get? index with
        | some v => Machine.execute M fuel (m.push v) rest locals
        | none => none
      | none => Machine.execute M fuel m rest locals
    | Instruction.LocalSet _ =>
      Machine.execute M fuel m rest locals
    | Instruction.CallFunc index =>
      match m.functions.get? index with
      | some func =>
        match m.popN func.nparams with
        | some (fargs, m1) =>
          match Machine.execute M fuel m1 func.code (some fargs) with
          | some m2 =>
            if func.returns then
              match m2.pop with
              | (some result, m3) =>
                Machine.execute M fuel (m3.push result) rest locals
              | (none, _) => none
            else
              Machine.execute M fuel m2 rest locals
          | none => none
        | none => none
      | none => none

/-- `Machine::call`: bind `args[k]` to local `k`, execute the body under
that scope, then pop the result when the function is declared to return
one.  The source performs no arity check, and `pop` on an empty stack
makes the result `None` without any fault. -/
def Machine.call (M : F64Model) (fuel : Nat) (m : Machine) (func : Function)
    (args : List Val) : Option (Machine × Option Val) :=
  match Machine.execute M fuel m func.code (some args) with
  | some m1 =>
    if func.returns then
      match m1.pop with
      | (res, m2) => some (m2, res)
    else
      some (m1, none)
  | none => none

/-- A stand-in `F64Model` instantiation (wrap-around arithmetic on bit
patterns, identity cast) used only to exhibit concrete runs; every
machine-level theorem quantifies over all instantiations. -/
def natModel : F64Model where
  add := fun a b => (a + b) % 18446744073709551616
  mul := fun a b => (a * b) % 18446744073709551616
  toUsize := fun v => v

/-- The IEEE-754 bit pattern of the value `0.0`: all 64 bits are zero. -/
def zeroBits : Val := 0

/-- The instruction is `Const`, `Add` or `Mul` (the purely arithmetic
fragment of the instruction set). -/
def isArith : Instruction → Bool
  | Instruction.Const _ => true
  | Instruction.Add => true
  | Instruction.Mul => true
  | _ => false

/-- The instruction is a `Const`. -/
def isConst : Instruction → Bool
  | Instruction.Const _ => true
  | _ => false

/-- The instruction is an `Add` or a `Mul`. -/
def isAddOrMul : Instruction → Bool
  | Instruction.Add => true
  | Instruction.Mul => true
  | _ => false

/-! ### Exact IEEE-754 binary64 semantics

The `F64Model` instantiation below gives `add`/`mul` their exact IEEE-754
binary64 meaning on finite values: decode the bit patterns to exact
rationals, take the exact sum/product, round to nearest (ties to even),
and encode the result.  Rationals are carried as unreduced integer
fractions (`Frac`) rather than `ℚ`, and the base-2 logarithm is a fueled
structural recursion, so that every operation is plain integer
arithmetic the kernel can evaluate.  Modelled exactly: all finite
inputs with finite results (normals and subnormals, any sign).  Not
modelled: NaN/infinity inputs, overflow to infinity, and the sign of a
negative result rounding to zero — none of which any claim exercises. -/

/-- An unreduced fraction `num / den` with `den > 0` by construction. -/
structure Frac where
  num : ℤ
  den : ℕ

/-- `⌊log₂ n⌋` for `n ≥ 1`, by fueled structural recursion (the fuel is
an upper bound on the bit length; callers pass 4200, far above any
number arising from binary64 values). -/
def nlog2 : Nat → Nat → Nat
  | 0, _ => 0
  | fuel + 1, n => if n ≤ 1 then 0 else nlog2 fuel (n / 2) + 1

/-- `⌊log₂ (n / d)⌋` for `n, d ≥ 1`: the difference of the integer logs,
corrected by one exact comparison. -/
def log2floor (n d : ℕ) : ℤ :=
  let L : ℤ := (nlog2 4200 n : ℤ) - (nlog2 4200 d : ℤ)
  if 0 ≤ L then (if (d : ℤ) * 2 ^ L.toNat ≤ (n : ℤ) then L else L - 1)
  else (if (d : ℤ) ≤ (n : ℤ) * 2 ^ (-L).toNat then L else L - 1)

/-- Round `(n / d) / 2^t` (with `n, d ≥ 1`) to an integer, nearest with
ties to even: the mantissa of the rounded value at unit `2^t`. -/
def roundAt (n d : ℕ) (t : ℤ) : ℕ :=
  let p := if t ≤ 0 then (n * 2 ^ (-t).toNat, d) else (n, d * 2 ^ t.toNat)
  let q := p.1 / p.2
  let r := p.1 % p.2
  if 2 * r < p.2 then q
  else if p.2 < 2 * r then q + 1
  else if q % 2 = 0 then q else q + 1

/-- IEEE-754 roundTiesToEven on binary64: the rounded value as a signed
mantissa `m` and unit exponent `t` (value `m * 2^t`), with the unit
clamped at `2^-1074` in the subnormal range. -/
def roundF64 (x : Frac) : ℤ × ℤ :=
  if x.num = 0 then (0, 0)
  else
    let n := x.num.natAbs
    let t := max (log2floor n x.den - 52) (-1074)
    let a := roundAt n x.den t
    (if x.num < 0 then -(a : ℤ) else (a : ℤ), t)

/-- Encode a rounded value `m * 2^t` (as produced by `roundF64`) into its
binary64 bit pattern: sign bit, then either a subnormal (`|m| < 2^52`,
`t = -1074`) or a normal with the mantissa-overflow carry `|m| = 2^53`
renormalised. -/
def encodeF64 (m t : ℤ) : Nat :=
  if m = 0 then 0
  else
    let s : Nat := if m < 0 then 9223372036854775808 else 0
    let a0 := m.natAbs
    let p := if a0 = 9007199254740992 then (4503599627370496, t + 1) else (a0, t)
    if p.1 < 4503599627370496 then s + p.1
    else s + (p.2 + 1075).toNat * 4503599627370496 + (p.1 - 4503599627370496)

/-- Decode a finite binary64 bit pattern into its exact rational value:
sign `bits/2^63`, exponent field `bits/2^52 % 2^11`, fraction
`bits % 2^52`; subnormals (`expField = 0`) weigh `frac * 2^-1074`,
normals `(2^52 + frac) * 2^(expField - 1075)`. -/
def decodeF64 (bits : Nat) : Frac :=
  let expField := bits / 4503599627370496 % 2048
  let frac := bits % 4503599627370496
  let mag : ℕ := if expField = 0 then frac else 4503599627370496 + frac
  let e : ℤ := if expField = 0 then -1074 else (expField : ℤ) - 1075
  let num : ℤ := if bits / 9223372036854775808 = 0 then (mag : ℤ) else -(mag : ℤ)
  if 0 ≤ e then ⟨num * 2 ^ e.toNat, 1⟩ else ⟨num, 2 ^ (-e).toNat⟩

/-- Exact (unrounded) sum of two fractions, gcd-free. -/
def fracAdd (x y : Frac) : Frac :=
  ⟨x.num * (y.den : ℤ) + y.num * (x.den : ℤ), x.den * y.den⟩

/-- Exact (unrounded) product of two fractions, gcd-free. -/
def fracMul (x y : Frac) : Frac :=
  ⟨x.num * y.num, x.den * y.den⟩

/-- The binary64 bit pattern of a numeric literal given as the exact
fraction `num / den` — e.g. the Rust literal `0.1` is `litF64 1 10` and
`2.3` is `litF64 23 10`: the nearest binary64 value, encoded. -/
def litF64 (num : ℤ) (den : ℕ) : Val :=
  let p := roundF64 ⟨num, den⟩
  encodeF64 p.1 p.2

/-- IEEE-754 binary64 addition on bit patterns: exact sum of the decoded
values, correctly rounded and re-encoded. -/
def ieeeAdd (x y : Val) : Val :=
  let p := roundF64 (fracAdd (decodeF64 x) (decodeF64 y))
  encodeF64 p.1 p.2

/-- IEEE-754 binary64 multiplication on bit patterns: exact product of
the decoded values, correctly rounded and re-encoded. -/
def ieeeMul (x y : Val) : Val :=
  let p := roundF64 (fracMul (decodeF64 x) (decodeF64 y))
  encodeF64 p.1 p.2

/-- Rust's saturating `f64 as usize` cast on finite values: truncate
toward zero, clamp to `[0, usize::MAX]`. -/
def ieeeToUsize (v : Val) : Nat :=
  let q := decodeF64 v
  if q.num < 0 then 0 else min (q.num.toNat / q.den) 18446744073709551615

/-- The `F64Model` whose operations carry the exact IEEE-754 binary64
semantics of the source's `f64` arithmetic. -/
def ieeeModel : F64Model where
  add := ieeeAdd
  mul := ieeeMul
  toUsize := ieeeToUsize

theorem toLeBytes_length (v : Val) : (toLeBytes v).length = 8 := by
  simp [toLeBytes]

theorem fromLeBytes_toLeBytes (v : Val) (h : v < 18446744073709551616) :
    fromLeBytes (toLeBytes v) = v := by
  have key : ∀ w : Nat, w < 18446744073709551616 →
      w % 256 + 256 * (w / 256 % 256 + 256 * (w / 65536 % 256 + 256 *
        (w / 16777216 % 256 + 256 * (w / 4294967296 % 256 + 256 *
          (w / 1099511627776 % 256 + 256 * (w / 281474976710656 % 256 + 256 *
            (w / 72057594037927936 % 256))))))) = w := by
    intro w hw
    omega
  simpa [toLeBytes, fromLeBytes] using key v h

/-- C7: For every address `a` with `a + 8 ≤ memory length` and every
64-bit value `v` (hence every finite `f64` bit pattern, negative values
and zero included), `store(a, v)` followed by `load(a)` returns `v`
exactly, bit for bit. -/
theorem store_load_roundtrip (m : Machine) (a : Nat) (v : Val)
    (hbound : a + 8 ≤ m.memory.length) (hval : v < 18446744073709551616) :
    ∃ m1, m.store a v = some m1 ∧ m1.load a = some v := by
  refine ⟨_, by rw [Machine.store, if_pos hbound], ?_⟩
  have hlen : (m.memory.take a).length = a := by
    rw [List.length_take]
    omega
  rw [Machine.load]
  rw [if_pos (by simp [List.length_append, toLeBytes_length, List.length_take,
        List.length_drop]; omega)]
  rw [List.append_assoc, List.drop_append_of_le_length (le_of_eq hlen.symm)]
  rw [List.drop_eq_nil_of_le (le_of_eq hlen), List.nil_append]
  rw [List.take_append_of_le_length (le_of_eq (toLeBytes_length v).symm)]
  rw [List.take_of_length_le (le_of_eq (toLeBytes_length v))]
  rw [fromLeBytes_toLeBytes v hval]

theorem store_load_roundtrip_witness :
    2 + 8 ≤ (Machine.new [] 16).memory.length ∧
      13835058055282163712 < 18446744073709551616 ∧
      ∃ m1, (Machine.new [] 16).store 2 13835058055282163712 = some m1 ∧
        m1.load 2 = some 13835058055282163712 :=
  ⟨by decide, by decide,
    store_load_roundtrip (Machine.new [] 16) 2 13835058055282163712
      (by decide) (by decide)⟩

/-- C9: A freshly constructed machine has all memory bytes zero, so
`load(a)` on it returns the bit pattern of `0.0` for every in-bounds
address. -/
theorem fresh_machine_load_zero (fns : List Function) (memSize a : Nat)
    (h : a + 8 ≤ memSize) :
    (Machine.new fns memSize).load a = some zeroBits := by
  rw [Machine.new, Machine.load]
  simp only [List.length_replicate]
  rw [if_pos h]
  rw [List.drop_replicate, List.take_replicate]
  have : min 8 (memSize - a) = 8 := by omega
  rw [this]
  rfl

theorem fresh_machine_load_zero_witness :
    0 + 8 ≤ 8 ∧ (Machine.new [] 8).load 0 = some zeroBits :=
  ⟨by decide, fresh_machine_load_zero [] 8 0 (by decide)⟩

/-- C1: evaluation of the code at the failing input.  The function table
holds one function with `nparams = 2`, `returns = true` and body
`[LocalGet 0]`; the stack holds `1` (pushed first, deepest) below `2`
(pushed last, on top).  Executing `CallFunc 0` yields final stack `[2]`:
local 0 received the LAST-pushed value, because the source's `.rev()`
acts on a lazy iterator whose closure performs the pops and therefore
does not reverse the collected argument vector.  The claim (local 0 =
first-pushed value) would require final stack `[1]`. -/
theorem callFunc_binds_locals_in_pop_order (M : F64Model) (fuel : Nat) :
    Machine.execute M (fuel + 2)
        ⟨[2, 1], [], [⟨2, true, [Instruction.LocalGet 0]⟩]⟩
        [Instruction.CallFunc 0] none =
      some ⟨[2], [], [⟨2, true, [Instruction.LocalGet 0]⟩]⟩ := by
  simp [Machine.execute, Machine.pop, Machine.push, Machine.popN]

/-- C2: evaluation of the code at the failing input.  `call` on a
function with `param_count = 0` and body `[Const 9]`, given the
one-element argument list `[4]`, performs no arity validation: it
executes the body (pushing `9`) and completes without any fault.  The
claim requires an arity-mismatch fault before the body runs. -/
theorem call_no_arity_check (M : F64Model) (fuel : Nat) :
    Machine.call M (fuel + 1) ⟨[], [], []⟩ ⟨0, false, [Instruction.Const 9]⟩ [4] =
      some (⟨[9], [], []⟩, none) := by
  simp [Machine.call, Machine.execute, Machine.push]

/-- C3: evaluation of the code at the failing input.  Under the active
scope `{0 ↦ 7}` and with operand stack `[5]`, executing
`[LocalSet 0, LocalGet 0]` leaves the stack `[7, 5]`: `LocalSet` (whose
body is commented out in the source) pops nothing and binds nothing, so
the subsequent `LocalGet 0` still sees `7`.  The claim requires `5` to
be popped and bound, making the final stack `[5]`. -/
theorem localSet_is_noop (M : F64Model) (fuel : Nat) :
    Machine.execute M (fuel + 2) ⟨[5], [], []⟩
        [Instruction.LocalSet 0, Instruction.LocalGet 0] (some [7]) =
      some ⟨[7, 5], [], []⟩ := by
  simp [Machine.execute, Machine.push]

/-- C4: evaluation of the code at the failing inputs.  `LocalGet 0` with
no active scope prints a message and continues (the execution completes
with the machine unchanged), and `LocalSet 3` under a one-entry scope
(index outside `0..param_count`) is a no-op; neither aborts.  The claim
requires both to be fatal faults. -/
theorem unbound_local_not_fatal (M : F64Model) (fuel : Nat) :
    Machine.execute M (fuel + 1) ⟨[], [], []⟩ [Instruction.LocalGet 0] none =
        some ⟨[], [], []⟩ ∧
      Machine.execute M (fuel + 1) ⟨[5], [], []⟩ [Instruction.LocalSet 3]
          (some [7]) =
        some ⟨[5], [], []⟩ := by
  constructor <;> simp [Machine.execute]

/-- The `CallFunc` arm of `execute` (where `Machine::call` is inlined to
keep the recursion structural in fuel) agrees with `Machine.call`
followed by the source's `result.unwrap()` push. -/
theorem execute_callFunc_via_call (M : F64Model) (fuel : Nat) (m : Machine)
    (index : Nat) (rest : List Instruction) (locals : Option Locals) :
    Machine.execute M (fuel + 1) m (Instruction.CallFunc index :: rest) locals =
      match m.functions.get? index with
      | some func =>
        match m.popN func.nparams with
        | some (fargs, m1) =>
          match Machine.call M fuel m1 func fargs with
          | some (m2, some result) =>
            Machine.execute M fuel (m2.push result) rest locals
          | some (m2, none) =>
            if func.returns then none
            else Machine.execute M fuel m2 rest locals
          | none => none
        | none => none
      | none => none := by
  cases hf : m.functions[index]? with
  | none => simp [Machine.execute, hf]
  | some func =>
    cases hp : m.popN func.nparams with
    | none => simp [Machine.execute, hf, hp]
    | some p =>
      obtain ⟨fargs, m1⟩ := p
      cases hb : Machine.execute M fuel m1 func.code (some fargs) with
      | none => simp [Machine.execute, Machine.call, hf, hp, hb]
      | some m2 =>
        cases hr : func.returns with
        | false => simp [Machine.execute, Machine.call, hf, hp, hb, hr]
        | true =>
          obtain ⟨stk2, mem2, fns2⟩ := m2
          cases stk2 <;>
            simp [Machine.execute, Machine.call, Machine.pop, hf, hp, hb, hr]

theorem pop_memory_functions (m : Machine) :
    (m.pop).2.memory = m.memory ∧ (m.pop).2.functions = m.functions := by
  obtain ⟨stk, mem, fns⟩ := m
  cases stk <;> simp [Machine.pop]

theorem popN_memory_functions :
    ∀ (n : Nat) (m : Machine) (vs : List Val) (m1 : Machine),
      m.popN n = some (vs, m1) → m1.memory = m.memory ∧ m1.functions = m.functions := by
  intro n
  induction n with
  | zero =>
    intro m vs m1 h
    simp [Machine.popN] at h
    simp [h]
  | succ n ih =>
    intro m vs m1 h
    obtain ⟨stk, mem, fns⟩ := m
    cases stk with
    | nil => simp [Machine.popN, Machine.pop] at h
    | cons a t =>
      simp only [Machine.popN, Machine.pop] at h
      cases hp : Machine.popN ⟨t, mem, fns⟩ n with
      | none => rw [hp] at h; simp at h
      | some p =>
        obtain ⟨vs', m2⟩ := p
        rw [hp] at h
        simp at h
        obtain ⟨-, hm⟩ := h
        have := ih ⟨t, mem, fns⟩ vs' m2 hp
        rw [← hm]
        exact this

theorem store_preserves (m : Machine) (a : Nat) (v : Val) (m1 : Machine)
    (h : m.store a v = some m1) :
    m1.memory.length = m.memory.length ∧ m1.stack = m.stack ∧
      m1.functions = m.functions := by
  by_cases hb : a + 8 ≤ m.memory.length
  · rw [Machine.store, if_pos hb] at h
    injection h with h
    subst h
    refine ⟨?_, rfl, rfl⟩
    simp [List.length_append, toLeBytes_length, List.length_take,
      List.length_drop]
    omega
  · rw [Machine.store, if_neg hb] at h
    exact absurd h (by simp)

theorem execute_preserves (M : F64Model) :
    ∀ (fuel : Nat) (instrs : List Instruction) (m m' : Machine)
      (locals : Option Locals),
      Machine.execute M fuel m instrs locals = some m' →
      m'.memory.length = m.memory.length ∧ m'.functions = m.functions := by
  intro fuel
  induction fuel with
  | zero =>
    intro instrs m m' locals he
    cases instrs with
    | nil => simp [Machine.execute] at he; simp [he]
    | cons i rest => simp [Machine.execute] at he
  | succ fuel ih =>
    intro instrs m m' locals he
    cases instrs with
    | nil => simp [Machine.execute] at he; simp [he]
    | cons i rest =>
      cases i with
      | Const v =>
        simp only [Machine.execute] at he
        simpa [Machine.push] using ih rest _ m' locals he
      | Add =>
        obtain ⟨stk, mem, fns⟩ := m
        match stk with
        | [] => simp [Machine.execute, Machine.pop] at he
        | [a] => simp [Machine.execute, Machine.pop] at he
        | a :: b :: t =>
          simp only [Machine.execute, Machine.pop, Machine.push] at he
          simpa using ih rest _ m' locals he
      | Mul =>
        obtain ⟨stk, mem, fns⟩ := m
        match stk with
        | [] => simp [Machine.execute, Machine.pop] at he
        | [a] => simp [Machine.execute, Machine.pop] at he
        | a :: b :: t =>
          simp only [Machine.execute, Machine.pop, Machine.push] at he
          simpa using ih rest _ m' locals he
      | Load =>
        obtain ⟨stk, mem, fns⟩ := m
        match stk with
        | [] => simp [Machine.execute, Machine.pop] at he
        | a :: t =>
          simp only [Machine.execute, Machine.pop] at he
          cases hl : Machine.load ⟨t, mem, fns⟩ (M.toUsize a) with
          | none => rw [hl] at he; simp at he
          | some v =>
            rw [hl] at he
            simp only at he
            simpa [Machine.push] using ih rest _ m' locals he
      | Store =>
        obtain ⟨stk, mem, fns⟩ := m
        match stk with
        | [] => simp [Machine.execute, Machine.pop] at he
        | [a] => simp [Machine.execute, Machine.pop] at he
        | a :: b :: t =>
          simp only [Machine.execute, Machine.pop] at he
          cases hs : Machine.store ⟨t, mem, fns⟩ (M.toUsize b) a with
          | none => rw [hs] at he; simp at he
          | some m3 =>
            rw [hs] at he
            simp only at he
            have h3 := store_preserves ⟨t, mem, fns⟩ (M.toUsize b) a m3 hs
            have h4 := ih rest m3 m' locals he
            exact ⟨h4.1.trans h3.1, h4.2.trans h3.2.2⟩
      | LocalGet i =>
        cases locals with
        | none =>
          simp only [Machine.execute] at he
          exact ih rest m m' none he
        | some l =>
          simp only [Machine.execute] at he
          cases hl : l.get? i with
          | none => rw [hl] at he; simp at he
          | some v =>
            rw [hl] at he
            simp only at he
            simpa [Machine.push] using ih rest _ m' (some l) he
      | LocalSet i =>
        simp only [Machine.execute] at he
        exact ih rest m m' locals he
      | CallFunc i =>
        simp only [Machine.execute] at he
        cases hf : m.functions.get? i with
        | none => rw [hf] at he; simp at he
        | some func =>
          rw [hf] at he
          simp only at he
          cases hp : m.popN func.nparams with
          | none => rw [hp] at he; simp at he
          | some p =>
            obtain ⟨fargs, m1⟩ := p
            rw [hp] at he
            simp only at he
            have h1 := popN_memory_functions func.nparams m fargs m1 hp
            cases hb : Machine.execute M fuel m1 func.code (some fargs) with
            | none => rw [hb] at he; simp at he
            | some m2 =>
              rw [hb] at he
              simp only at he
              have h2 := ih func.code m1 m2 (some fargs) hb
              cases hr : func.returns with
              | false =>
                rw [hr] at he
                simp only [Bool.false_eq_true, if_false] at he
                have h4 := ih rest m2 m' locals he
                rw [h1.1] at h2
                rw [h1.2] at h2
                exact ⟨h4.1.trans h2.1, h4.2.trans h2.2⟩
              | true =>
                rw [hr] at he
                simp only [if_true] at he
                obtain ⟨stk2, mem2, fns2⟩ := m2
                cases stk2 with
                | nil => simp [Machine.pop] at he
                | cons r t2 =>
                  simp only [Machine.pop, Machine.push] at he
                  have h4 := ih rest _ m' locals he
                  simp at h4
                  rw [h1.1] at h2
                  rw [h1.2] at h2
                  simp at h2
                  exact ⟨h4.1.trans h2.1, h4.2.trans h2.2⟩

/-- C10: no machine operation changes the length of the linear memory
or the contents of the function table: `push`, `pop` and `store`
preserve both, and so do whole executions (`execute`, nested `CallFunc`
invocations included) and direct `call`s.  (`load` reads memory without
returning a machine at all in this embedding.) -/
theorem machine_preserves_memory_and_functions :
    (∀ (m : Machine) (v : Val),
        (m.push v).memory = m.memory ∧ (m.push v).functions = m.functions) ∧
      (∀ m : Machine,
        (m.pop).2.memory = m.memory ∧ (m.pop).2.functions = m.functions) ∧
      (∀ (m : Machine) (a : Nat) (v : Val) (m1 : Machine),
        m.store a v = some m1 →
          m1.memory.length = m.memory.length ∧ m1.functions = m.functions) ∧
      (∀ (M : F64Model) (fuel : Nat) (m : Machine) (instrs : List Instruction)
          (locals : Option Locals) (m' : Machine),
        Machine.execute M fuel m instrs locals = some m' →
          m'.memory.length = m.memory.length ∧ m'.functions = m.functions) ∧
      (∀ (M : F64Model) (fuel : Nat) (m : Machine) (func : Function)
          (args : List Val) (m' : Machine) (res : Option Val),
        Machine.call M fuel m func args = some (m', res) →
          m'.memory.length = m.memory.length ∧ m'.functions = m.functions) := by
  refine ⟨fun m v => ⟨rfl, rfl⟩, pop_memory_functions,
    fun m a v m1 h => ((store_preserves m a v m1 h).imp_right And.right),
    fun M fuel m instrs locals m' h => execute_preserves M fuel instrs m m' locals h,
    fun M fuel m func args m' res h => ?_⟩
  rw [Machine.call] at h
  cases hb : Machine.execute M fuel m func.code (some args) with
  | none => rw [hb] at h; simp at h
  | some m1 =>
    rw [hb] at h
    simp only at h
    have h1 := execute_preserves M fuel func.code m m1 (some args) hb
    cases hr : func.returns with
    | false =>
      rw [hr] at h
      simp only [Bool.false_eq_true, if_false] at h
      simp at h
      rw [← h.1]
      exact h1
    | true =>
      rw [hr] at h
      simp only [if_true] at h
      have h2 := pop_memory_functions m1
      simp at h
      rw [h.1] at h2
      rw [h2.1, h2.2]
      exact h1

theorem machine_preserves_memory_and_functions_witness :
    (Machine.mk [] [0, 0, 0, 0, 0, 0, 0, 0] []).store 0 5 =
        some (Machine.mk [] [5, 0, 0, 0, 0, 0, 0, 0] []) ∧
      ((Machine.mk [] [5, 0, 0, 0, 0, 0, 0, 0] []).memory.length =
          (Machine.mk [] [0, 0, 0, 0, 0, 0, 0, 0] []).memory.length ∧
        (Machine.mk [] [5, 0, 0, 0, 0, 0, 0, 0] []).functions =
          (Machine.mk [] [0, 0, 0, 0, 0, 0, 0, 0] []).functions) :=
  ⟨by decide,
    machine_preserves_memory_and_functions.2.2.1
      (Machine.mk [] [0, 0, 0, 0, 0, 0, 0, 0] []) 0 5
      (Machine.mk [] [5, 0, 0, 0, 0, 0, 0, 0] []) (by decide)⟩

/-- Helper for C8: over the arithmetic fragment, each `Const` raises the
stack height by one and each `Add`/`Mul` lowers it by one, whatever the
starting stack; stated additively to stay in `Nat`. -/
theorem execute_arith_height (M : F64Model) :
    ∀ (fuel : Nat) (instrs : List Instruction) (m m' : Machine)
      (locals : Option Locals),
      instrs.all isArith = true →
      Machine.execute M fuel m instrs locals = some m' →
      m'.stack.length + instrs.countP isAddOrMul =
        m.stack.length + instrs.countP isConst := by
  intro fuel
  induction fuel with
  | zero =>
    intro instrs m m' locals ha he
    cases instrs with
    | nil =>
      simp [Machine.execute] at he
      simp [he]
    | cons i rest => simp [Machine.execute] at he
  | succ fuel ih =>
    intro instrs m m' locals ha he
    cases instrs with
    | nil =>
      simp [Machine.execute] at he
      simp [he]
    | cons i rest =>
      rw [List.all_cons, Bool.and_eq_true] at ha
      obtain ⟨hai, har⟩ := ha
      cases i with
      | Const v =>
        simp only [Machine.execute] at he
        have := ih rest _ _ locals har he
        simp [Machine.push] at this
        simp [isConst, isAddOrMul, List.countP_cons, this]
        omega
      | Add =>
        obtain ⟨stk, mem, fns⟩ := m
        match stk with
        | [] => simp [Machine.execute, Machine.pop] at he
        | [a] => simp [Machine.execute, Machine.pop] at he
        | a :: b :: t =>
          simp only [Machine.execute, Machine.pop, Machine.push] at he
          have := ih rest _ _ locals har he
          simp at this
          simp [isConst, isAddOrMul, List.countP_cons, this]
          omega
      | Mul =>
        obtain ⟨stk, mem, fns⟩ := m
        match stk with
        | [] => simp [Machine.execute, Machine.pop] at he
        | [a] => simp [Machine.execute, Machine.pop] at he
        | a :: b :: t =>
          simp only [Machine.execute, Machine.pop, Machine.push] at he
          have := ih rest _ _ locals har he
          simp at this
          simp [isConst, isAddOrMul, List.countP_cons, this]
          omega
      | Load => simp [isArith] at hai
      | Store => simp [isArith] at hai
      | LocalGet _ => simp [isArith] at hai
      | LocalSet _ => simp [isArith] at hai
      | CallFunc _ => simp [isArith] at hai

/-- C8: Executing a balanced sequence of only `Const`, `Add` and `Mul`
from an empty stack (execution succeeding, i.e. every `Add`/`Mul` found
its two operands and the fuel sufficed) leaves a final stack height of
(number of `Const`) − (number of `Add` + number of `Mul`). -/
theorem arith_stack_height (M : F64Model) (fuel : Nat)
    (instrs : List Instruction) (mem : List Byte) (fns : List Function)
    (locals : Option Locals) (m' : Machine)
    (harith : instrs.all isArith = true)
    (hrun : Machine.execute M fuel ⟨[], mem, fns⟩ instrs locals = some m') :
    m'.stack.length = instrs.countP isConst - instrs.countP isAddOrMul := by
  have h := execute_arith_height M fuel instrs ⟨[], mem, fns⟩ m' locals harith hrun
  simp at h
  omega

theorem arith_stack_height_witness :
    ([Instruction.Const 2, Instruction.Const 3, Instruction.Const 1,
        Instruction.Mul, Instruction.Add].all isArith = true) ∧
      Machine.execute natModel 5 ⟨[], [], []⟩
          [Instruction.Const 2, Instruction.Const 3, Instruction.Const 1,
           Instruction.Mul, Instruction.Add] none =
        some ⟨[5], [], []⟩ ∧
      (Machine.mk [5] [] []).stack.length =
        [Instruction.Const 2, Instruction.Const 3, Instruction.Const 1,
         Instruction.Mul, Instruction.Add].countP isConst -
          [Instruction.Const 2, Instruction.Const 3, Instruction.Const 1,
           Instruction.Mul, Instruction.Add].countP isAddOrMul :=
  ⟨by decide, by decide,
    arith_stack_height natModel 5
      [Instruction.Const 2, Instruction.Const 3, Instruction.Const 1,
       Instruction.Mul, Instruction.Add] [] [] none ⟨[5], [], []⟩
      (by decide) (by decide)⟩

set_option maxRecDepth 10000 in
/-- C6: Scenario 1, under exact IEEE-754 binary64 semantics
(`ieeeModel`).  Executing `[Const 2.0, Const 3.0, Const 0.1, Mul, Add]`
on an empty operand stack leaves exactly the single value `2.3` on the
stack: `3.0 * 0.1` rounds to `0x1.3333333333334p-2` and adding `2.0`
rounds — a tie broken to even — exactly onto the binary64 value nearest
`23/10`, i.e. the bit pattern of the literal `2.3`.  The literals are
rendered by `litF64` (numerator/denominator of the decimal literal). -/
theorem scenario1_const_mul_add (fuel : Nat) (mem : List Byte)
    (fns : List Function) :
    Machine.execute ieeeModel (fuel + 5) ⟨[], mem, fns⟩
      [Instruction.Const (litF64 2 1), Instruction.Const (litF64 3 1),
       Instruction.Const (litF64 1 10), Instruction.Mul, Instruction.Add]
      none =
      some ⟨[litF64 23 10], mem, fns⟩ := by
  have key : ieeeAdd (litF64 2 1) (ieeeMul (litF64 3 1) (litF64 1 10)) =
      litF64 23 10 := by decide
  simp [Machine.execute, Machine.push, Machine.pop, ieeeModel, key]

/-- C5: evaluation of the code at the failing input.  `call` on a
function with `returns = true` and an empty body, starting from an empty
operand stack, completes without fault and silently produces the absent
result `None` (`pop` on the empty stack).  The claim requires a
missing-return-value fault. -/
theorem call_missing_return_yields_none (M : F64Model) (fuel : Nat) :
    Machine.call M fuel ⟨[], [], []⟩ ⟨0, true, []⟩ [] =
      some (⟨[], [], []⟩, none) := by
  simp [Machine.call, Machine.execute, Machine.pop]

end Stasm
